import Mathlib

/-!
Verification of the chainmail 3D deformation engine (deform.py).

The source operates on a numpy array of voxel positions (one row per voxel,
three coordinates).  The embedding models a position as a record of three
integers (the repository works on integer-millimeter lattices), the grid as a
List of positions in the same order as the numpy rows, and a row of the
sponsor bookkeeping array as a position paired with its grid index.  Python
exceptions (numpy IndexError from an empty where-result, IndexError from
slicing a one-dimensional array with two indices, ValueError from appending
arrays of mismatched dimensionality, out-of-range indexing) are modelled with
an Except monad, one constructor per distinct failure site.  The source also
computes side_length as ceil(count ** (1/3) * step) in IEEE double arithmetic
inside find_neighbors; because that value is floating point (and platform
dependent for cube roots), the embedding threads side_length through as an
explicit parameter, and concrete instances state which value the correctly
rounded computation yields.
-/

set_option maxRecDepth 4096

/-- A voxel position: one row of the position matrix, three coordinates. -/
structure Vox where
  x : Int
  y : Int
  z : Int
deriving DecidableEq, Repr

/-- Componentwise addition of positions (numpy vector addition). -/
def vadd (a b : Vox) : Vox := ⟨a.x + b.x, a.y + b.y, a.z + b.z⟩

/-- Componentwise subtraction of positions (numpy vector subtraction). -/
def vsub (a b : Vox) : Vox := ⟨a.x - b.x, a.y - b.y, a.z - b.z⟩

/-- A sponsor row [x, y, z, index]: a (possibly displaced) position together
with the voxel index the fourth slot holds at that stage. -/
structure Row where
  pos : Vox
  idx : Nat
deriving DecidableEq, Repr

/-- A neighbor candidate [x, y, z, direction_code] as produced by
find_neighbors: position plus direction code in the fourth slot. -/
structure Nb where
  pos : Vox
  code : Int
deriving DecidableEq, Repr

/-- The Python/numpy exceptions the source can raise, plus a fuelOut marker
used only by the fueled embedding of the while loop (provably unreachable for
nonzero spacing, see the termination theorems). -/
inductive PyErr where
  | notFound
  | shapeMismatch
  | oneDimSlice
  | oob
  | fuelOut
deriving DecidableEq, Repr

/-- find_index (deform.py lines 98-103): first exact match of a voxel in the
matrix; an empty numpy where-result raises IndexError, modelled as none. -/
def find_index (voxel : Vox) : List Vox → Option Nat
  | [] => none
  | v :: rest => if v = voxel then some 0 else (find_index voxel rest).map (fun i => i + 1)

theorem find_index_lt {voxel : Vox} : ∀ {m : List Vox} {i : Nat},
    find_index voxel m = some i → i < m.length := by
  intro m
  induction m with
  | nil => intro i h; simp [find_index] at h
  | cons v rest ih =>
    intro i h
    simp only [find_index] at h
    by_cases hv : v = voxel
    · rw [if_pos hv] at h
      injection h with h
      subst h
      simp
    · rw [if_neg hv] at h
      cases hf : find_index voxel rest with
      | none => rw [hf] at h; simp at h
      | some j =>
        rw [hf] at h
        simp at h
        subst h
        have := ih hf
        simp
        omega

theorem find_index_get {voxel : Vox} : ∀ {m : List Vox} {i : Nat},
    find_index voxel m = some i → m.get? i = some voxel := by
  intro m
  induction m with
  | nil => intro i h; simp [find_index] at h
  | cons v rest ih =>
    intro i h
    simp only [find_index] at h
    by_cases hv : v = voxel
    · rw [if_pos hv] at h
      injection h with h
      subst h
      simp [hv]
    · rw [if_neg hv] at h
      cases hf : find_index voxel rest with
      | none => rw [hf] at h; simp at h
      | some j =>
        rw [hf] at h
        simp at h
        subst h
        simpa using ih hf

theorem find_index_none {voxel : Vox} : ∀ {m : List Vox},
    find_index voxel m = none ↔ voxel ∉ m := by
  intro m
  induction m with
  | nil => simp [find_index]
  | cons v rest ih =>
    simp only [find_index]
    by_cases hv : v = voxel
    · rw [if_pos hv]
      simp [hv]
    · rw [if_neg hv]
      cases hf : find_index voxel rest with
      | none =>
        simp only [Option.map_none']
        have hr : voxel ∉ rest := ih.mp hf
        simp only [List.mem_cons, true_iff]
        intro hc
        rcases hc with he | hm
        · exact hv he.symm
        · exact hr hm
      | some j =>
        simp only [Option.map_some']
        have hr : voxel ∈ rest := by
          by_contra hnr
          rw [ih.mpr hnr] at hf
          simp at hf
        simp [List.mem_cons, hr]

theorem find_index_mem {voxel : Vox} {m : List Vox} (h : voxel ∈ m) :
    ∃ i, find_index voxel m = some i := by
  cases hf : find_index voxel m with
  | none => exact absurd h (find_index_none.mp hf)
  | some i => exact ⟨i, rfl⟩

theorem find_index_inj {p q : Vox} {m : List Vox} {i j : Nat} (hpq : p ≠ q)
    (hp : find_index p m = some i) (hq : find_index q m = some j) : i ≠ j := by
  intro hij
  subst hij
  have h1 := find_index_get hp
  have h2 := find_index_get hq
  rw [h1] at h2
  exact hpq (Option.some.inj h2)

/-!
The six directional constraint functions (deform.py lines 106-265).  Each
mutates the candidate coordinates in place and returns 0 (a falsy sentinel)
when nothing changed, else the mutated candidate.  The three coordinate
blocks of every function read only the coordinate they write, so the in-place
updates are modelled as three independent conditional updates; the adjusted
position is split out as a named definition so the return convention can be
stated.  The clamp expressions below reproduce the source verbatim, including
the places where it references sponsor.y where sponsor.x would be expected
and where a bound has the wrong sign (compare the spec_ versions further
down, which follow the natural-language contract of spec section 4.4).
-/

/-- Adjusted candidate computed by deform_right (lines 111-128). -/
def deform_right_adjust (sponsor candidate : Vox) (step stiffness_coef : Int) : Vox :=
  let minimum := step - stiffness_coef
  let maximum := step + stiffness_coef
  let shear := stiffness_coef
  ⟨if candidate.x - sponsor.x < minimum then sponsor.x + minimum
    else if candidate.x - sponsor.x > maximum then sponsor.y + maximum
    else candidate.x,
   if candidate.y - sponsor.y < -shear then sponsor.y - shear
    else if candidate.y - sponsor.y > shear then sponsor.y + shear
    else candidate.y,
   if candidate.z - sponsor.z < -shear then sponsor.z - shear
    else if candidate.z - sponsor.z > shear then sponsor.z + shear
    else candidate.z⟩

/-- deform_right (lines 106-130): adjusted candidate, or the sentinel when
no coordinate changed. -/
def deform_right (sponsor candidate : Vox) (step stiffness_coef : Int) : Option Vox :=
  let adjusted := deform_right_adjust sponsor candidate step stiffness_coef
  if adjusted = candidate then none else some adjusted

/-- Adjusted candidate computed by deform_left (lines 138-155). -/
def deform_left_adjust (sponsor candidate : Vox) (step stiffness_coef : Int) : Vox :=
  let minimum := step - stiffness_coef
  let maximum := step + stiffness_coef
  let shear := stiffness_coef
  ⟨if candidate.x - sponsor.x < -maximum then sponsor.x - maximum
    else if candidate.x - sponsor.x > -minimum then sponsor.y - minimum
    else candidate.x,
   if candidate.y - sponsor.y < -shear then sponsor.y + shear
    else if candidate.y - sponsor.y > shear then sponsor.y + shear
    else candidate.y,
   if candidate.z - sponsor.z < -shear then sponsor.z - shear
    else if candidate.z - sponsor.z > shear then sponsor.z + shear
    else candidate.z⟩

/-- deform_left (lines 133-157). -/
def deform_left (sponsor candidate : Vox) (step stiffness_coef : Int) : Option Vox :=
  let adjusted := deform_left_adjust sponsor candidate step stiffness_coef
  if adjusted = candidate then none else some adjusted

/-- Adjusted candidate computed by deform_top (lines 165-182). -/
def deform_top_adjust (sponsor candidate : Vox) (step shear : Int) : Vox :=
  let minimum := step - shear
  let maximum := step + shear
  ⟨if candidate.x - sponsor.x < -shear then sponsor.x + shear
    else if candidate.x - sponsor.x > shear then sponsor.y + shear
    else candidate.x,
   if candidate.y - sponsor.y < minimum then sponsor.y + minimum
    else if candidate.y - sponsor.y > maximum then sponsor.y + maximum
    else candidate.y,
   if candidate.z - sponsor.z < -shear then sponsor.z - shear
    else if candidate.z - sponsor.z > shear then sponsor.z + shear
    else candidate.z⟩

/-- deform_top (lines 160-184). -/
def deform_top (sponsor candidate : Vox) (step shear : Int) : Option Vox :=
  let adjusted := deform_top_adjust sponsor candidate step shear
  if adjusted = candidate then none else some adjusted

/-- Adjusted candidate computed by deform_lower (lines 192-209). -/
def deform_lower_adjust (sponsor candidate : Vox) (step shear : Int) : Vox :=
  let minimum := step - shear
  let maximum := step + shear
  ⟨if candidate.x - sponsor.x < -shear then sponsor.x + shear
    else if candidate.x - sponsor.x > shear then sponsor.y + shear
    else candidate.x,
   if candidate.y - sponsor.y > -minimum then sponsor.y - minimum
    else if candidate.y - sponsor.y < -maximum then sponsor.y - maximum
    else candidate.y,
   if candidate.z - sponsor.z < -shear then sponsor.z - shear
    else if candidate.z - sponsor.z > shear then sponsor.z + shear
    else candidate.z⟩

/-- deform_lower (lines 187-211). -/
def deform_lower (sponsor candidate : Vox) (step shear : Int) : Option Vox :=
  let adjusted := deform_lower_adjust sponsor candidate step shear
  if adjusted = candidate then none else some adjusted

/-- Adjusted candidate computed by deform_down (lines 219-236). -/
def deform_down_adjust (sponsor candidate : Vox) (step shear : Int) : Vox :=
  let minimum := step - shear
  let maximum := step + shear
  ⟨if candidate.x - sponsor.x < -shear then sponsor.x + shear
    else if candidate.x - sponsor.x > shear then sponsor.x + shear
    else candidate.x,
   if candidate.y - sponsor.y < -shear then sponsor.y - shear
    else if candidate.y - sponsor.y > shear then sponsor.y + shear
    else candidate.y,
   if candidate.z - sponsor.z > -minimum then sponsor.z - minimum
    else if candidate.z - sponsor.z < -maximum then sponsor.z - maximum
    else candidate.z⟩

/-- deform_down (lines 214-238). -/
def deform_down (sponsor candidate : Vox) (step shear : Int) : Option Vox :=
  let adjusted := deform_down_adjust sponsor candidate step shear
  if adjusted = candidate then none else some adjusted

/-- Adjusted candidate computed by deform_up (lines 246-263). -/
def deform_up_adjust (sponsor candidate : Vox) (step shear : Int) : Vox :=
  let minimum := step - shear
  let maximum := step + shear
  ⟨if candidate.x - sponsor.x < -shear then sponsor.x + shear
    else if candidate.x - sponsor.x > shear then sponsor.x + shear
    else candidate.x,
   if candidate.y - sponsor.y < -shear then sponsor.y - shear
    else if candidate.y - sponsor.y > shear then sponsor.y + shear
    else candidate.y,
   if candidate.z - sponsor.z > minimum then sponsor.z + minimum
    else if candidate.z - sponsor.z > maximum then sponsor.z + maximum
    else candidate.z⟩

/-- deform_up (lines 241-265). -/
def deform_up (sponsor candidate : Vox) (step shear : Int) : Option Vox :=
  let adjusted := deform_up_adjust sponsor candidate step shear
  if adjusted = candidate then none else some adjusted

/-- deform_neighbour (lines 268-284): dispatch on the direction code in the
fourth slot of the neighbor; an unknown code falls through to Python None,
which the caller treats exactly like the sentinel 0. -/
def deform_neighbour (sponsor candidate : Vox) (code : Int) (step shear : Int) : Option Vox :=
  if code = 0 then deform_right sponsor candidate step shear
  else if code = 1 then deform_left sponsor candidate step shear
  else if code = 2 then deform_top sponsor candidate step shear
  else if code = 3 then deform_lower sponsor candidate step shear
  else if code = 4 then deform_down sponsor candidate step shear
  else if code = 5 then deform_up sponsor candidate step shear
  else none

/-- Clamp an integer offset into the closed interval from lo to hi. -/
def clampInt (v lo hi : Int) : Int := max lo (min v hi)

/-!
The spec-side constraint functions.  Modelled from the spec, section 4.4:
the primary-axis offset, signed consistently with the direction, is clamped
into the interval from step minus stiffness to step plus stiffness relative
to the sponsor coordinate on that axis, and each perpendicular-axis offset is
clamped into the interval from minus stiffness to plus stiffness.  These
exist only to be compared with the source functions above.
-/

/-- Spec section 4.4 contract for direction code 0 (+x, right). -/
def spec_right (sponsor candidate : Vox) (step stiffness : Int) : Vox :=
  ⟨sponsor.x + clampInt (candidate.x - sponsor.x) (step - stiffness) (step + stiffness),
   sponsor.y + clampInt (candidate.y - sponsor.y) (-stiffness) stiffness,
   sponsor.z + clampInt (candidate.z - sponsor.z) (-stiffness) stiffness⟩

/-- Spec section 4.4 contract for direction code 1 (-x, left). -/
def spec_left (sponsor candidate : Vox) (step stiffness : Int) : Vox :=
  ⟨sponsor.x - clampInt (sponsor.x - candidate.x) (step - stiffness) (step + stiffness),
   sponsor.y + clampInt (candidate.y - sponsor.y) (-stiffness) stiffness,
   sponsor.z + clampInt (candidate.z - sponsor.z) (-stiffness) stiffness⟩

/-- Spec section 4.4 contract for direction code 2 (+y, top). -/
def spec_top (sponsor candidate : Vox) (step stiffness : Int) : Vox :=
  ⟨sponsor.x + clampInt (candidate.x - sponsor.x) (-stiffness) stiffness,
   sponsor.y + clampInt (candidate.y - sponsor.y) (step - stiffness) (step + stiffness),
   sponsor.z + clampInt (candidate.z - sponsor.z) (-stiffness) stiffness⟩

/-- Spec section 4.4 contract for direction code 3 (-y, bottom). -/
def spec_lower (sponsor candidate : Vox) (step stiffness : Int) : Vox :=
  ⟨sponsor.x + clampInt (candidate.x - sponsor.x) (-stiffness) stiffness,
   sponsor.y - clampInt (sponsor.y - candidate.y) (step - stiffness) (step + stiffness),
   sponsor.z + clampInt (candidate.z - sponsor.z) (-stiffness) stiffness⟩

/-- Spec section 4.4 contract for direction code 4 (-z, down). -/
def spec_down (sponsor candidate : Vox) (step stiffness : Int) : Vox :=
  ⟨sponsor.x + clampInt (candidate.x - sponsor.x) (-stiffness) stiffness,
   sponsor.y + clampInt (candidate.y - sponsor.y) (-stiffness) stiffness,
   sponsor.z - clampInt (sponsor.z - candidate.z) (step - stiffness) (step + stiffness)⟩

/-- Spec section 4.4 contract for direction code 5 (+z, up). -/
def spec_up (sponsor candidate : Vox) (step stiffness : Int) : Vox :=
  ⟨sponsor.x + clampInt (candidate.x - sponsor.x) (-stiffness) stiffness,
   sponsor.y + clampInt (candidate.y - sponsor.y) (-stiffness) stiffness,
   sponsor.z + clampInt (candidate.z - sponsor.z) (step - stiffness) (step + stiffness)⟩

/-- Return value the spec prescribes: the spec-clamped position when it
differs from the candidate, otherwise the no-change sentinel. -/
def spec_return (adjusted candidate : Vox) : Option Vox :=
  if adjusted = candidate then none else some adjusted

/-- C1: the claim states that each of the six directional constraint
functions clamps the signed primary-axis offset into the interval from step
minus stiffness to step plus stiffness relative to the sponsor coordinate on
the primary axis, and each perpendicular offset into the interval from minus
stiffness to plus stiffness relative to the sponsor coordinate on that axis.
This is false of the code: every one of the six functions disagrees with
that contract at the concrete inputs below (deform_right and deform_left set
the upper primary bound from sponsor.y instead of sponsor.x; deform_left,
deform_top, deform_lower, deform_down and deform_up set a lower shear bound
with plus stiffness instead of minus stiffness or from sponsor.y; deform_up
clamps offsets that are above the minimum down to the minimum, i.e. its
primary clamp is inverted). -/
theorem c1_constraint_divergence :
    deform_right ⟨0, 5, 0⟩ ⟨10, 5, 0⟩ 1 0 = some ⟨6, 5, 0⟩ ∧
    deform_right ⟨0, 5, 0⟩ ⟨10, 5, 0⟩ 1 0 ≠
      spec_return (spec_right ⟨0, 5, 0⟩ ⟨10, 5, 0⟩ 1 0) ⟨10, 5, 0⟩ ∧
    deform_left ⟨0, 0, 0⟩ ⟨-1, -5, 0⟩ 1 1 = some ⟨-1, 1, 0⟩ ∧
    deform_left ⟨0, 0, 0⟩ ⟨-1, -5, 0⟩ 1 1 ≠
      spec_return (spec_left ⟨0, 0, 0⟩ ⟨-1, -5, 0⟩ 1 1) ⟨-1, -5, 0⟩ ∧
    deform_top ⟨5, 0, 0⟩ ⟨3, 1, 0⟩ 1 1 = some ⟨6, 1, 0⟩ ∧
    deform_top ⟨5, 0, 0⟩ ⟨3, 1, 0⟩ 1 1 ≠
      spec_return (spec_top ⟨5, 0, 0⟩ ⟨3, 1, 0⟩ 1 1) ⟨3, 1, 0⟩ ∧
    deform_lower ⟨5, 0, 0⟩ ⟨3, -1, 0⟩ 1 1 = some ⟨6, -1, 0⟩ ∧
    deform_lower ⟨5, 0, 0⟩ ⟨3, -1, 0⟩ 1 1 ≠
      spec_return (spec_lower ⟨5, 0, 0⟩ ⟨3, -1, 0⟩ 1 1) ⟨3, -1, 0⟩ ∧
    deform_down ⟨5, 0, 10⟩ ⟨3, 0, 9⟩ 1 1 = some ⟨6, 0, 9⟩ ∧
    deform_down ⟨5, 0, 10⟩ ⟨3, 0, 9⟩ 1 1 ≠
      spec_return (spec_down ⟨5, 0, 10⟩ ⟨3, 0, 9⟩ 1 1) ⟨3, 0, 9⟩ ∧
    deform_up ⟨0, 0, 0⟩ ⟨0, 0, 1⟩ 1 1 = some ⟨0, 0, 0⟩ ∧
    deform_up ⟨0, 0, 0⟩ ⟨0, 0, 1⟩ 1 1 ≠
      spec_return (spec_up ⟨0, 0, 0⟩ ⟨0, 0, 1⟩ 1 1) ⟨0, 0, 1⟩ := by
  decide

/-!
Neighbor enumeration (deform.py lines 287-327).  The source walks the six
axis-aligned offsets in the fixed order right, left, top, bottom, down, up;
for each it first checks the cube bound, then looks the offset position up in
the matrix (raising if absent) and keeps it only when its index is not in the
history.  The embedding splits this into the bound-filtered candidate list
(pure) and an in-order monadic pass that performs exactly the same
find_index calls with the same history, so calls, errors and results line up
with the source.
-/

/-- The bound-checked candidate offsets of find_neighbors, in source order
(codes 0-5); the z candidates are dropped when surface_only is true. -/
def candidates (sponsor : Vox) (step sideLen : Int) (surface_only : Bool) : List Nb :=
  (if sponsor.x + step < sideLen then [⟨⟨sponsor.x + step, sponsor.y, sponsor.z⟩, 0⟩] else []) ++
  (if 0 ≤ sponsor.x - step then [⟨⟨sponsor.x - step, sponsor.y, sponsor.z⟩, 1⟩] else []) ++
  (if sponsor.y + step < sideLen then [⟨⟨sponsor.x, sponsor.y + step, sponsor.z⟩, 2⟩] else []) ++
  (if 0 ≤ sponsor.y - step then [⟨⟨sponsor.x, sponsor.y - step, sponsor.z⟩, 3⟩] else []) ++
  (if surface_only then [] else
    (if 0 ≤ sponsor.z - step then [⟨⟨sponsor.x, sponsor.y, sponsor.z - step⟩, 4⟩] else []) ++
    (if sponsor.z + step < sideLen then [⟨⟨sponsor.x, sponsor.y, sponsor.z + step⟩, 5⟩] else []))

/-- In-order history test of find_neighbors: look each candidate up in the
matrix (none raises IndexError) and keep those whose index is not yet in the
sponsor history. -/
def filterFresh (cube : List Vox) (hist : List Nat) : List Nb → Except PyErr (List Nb)
  | [] => .ok []
  | nb :: rest =>
    match find_index nb.pos cube with
    | none => .error .notFound
    | some i =>
      match filterFresh cube hist rest with
      | .error e => .error e
      | .ok l => .ok (if i ∈ hist then l else nb :: l)

/-- find_neighbors (lines 287-327). -/
def find_neighbors (sponsor : Vox) (cube : List Vox) (hist : List Nat)
    (step sideLen : Int) (surface_only : Bool) : Except PyErr (List Nb) :=
  filterFresh cube hist (candidates sponsor step sideLen surface_only)

theorem filterFresh_mem {cube : List Vox} {hist : List Nat} :
    ∀ {input l : List Nb}, filterFresh cube hist input = .ok l →
    ∀ nb ∈ l, nb ∈ input ∧ ∃ i, find_index nb.pos cube = some i ∧ i ∉ hist := by
  intro input
  induction input with
  | nil =>
    intro l h nb hnb
    simp [filterFresh] at h
    subst h
    simp at hnb
  | cons c rest ih =>
    intro l h nb hnb
    simp only [filterFresh] at h
    cases hf : find_index c.pos cube with
    | none => rw [hf] at h; simp at h
    | some i =>
      rw [hf] at h
      cases hr : filterFresh cube hist rest with
      | error e => rw [hr] at h; simp at h
      | ok l0 =>
        rw [hr] at h
        simp at h
        subst h
        by_cases hi : i ∈ hist
        · rw [if_pos hi] at hnb
          obtain ⟨h1, h2⟩ := ih hr nb hnb
          exact ⟨List.mem_cons_of_mem _ h1, h2⟩
        · rw [if_neg hi] at hnb
          rcases List.mem_cons.mp hnb with he | hm
          · subst he
            exact ⟨List.mem_cons_self _ _, ⟨i, hf, hi⟩⟩
          · obtain ⟨h1, h2⟩ := ih hr nb hm
            exact ⟨List.mem_cons_of_mem _ h1, h2⟩

theorem filterFresh_sublist {cube : List Vox} {hist : List Nat} :
    ∀ {input l : List Nb}, filterFresh cube hist input = .ok l → List.Sublist l input := by
  intro input
  induction input with
  | nil =>
    intro l h
    simp [filterFresh] at h
    subst h
    exact List.Sublist.refl _
  | cons c rest ih =>
    intro l h
    simp only [filterFresh] at h
    cases hf : find_index c.pos cube with
    | none => rw [hf] at h; simp at h
    | some i =>
      rw [hf] at h
      cases hr : filterFresh cube hist rest with
      | error e => rw [hr] at h; simp at h
      | ok l0 =>
        rw [hr] at h
        simp at h
        subst h
        by_cases hi : i ∈ hist
        · rw [if_pos hi]
          exact List.Sublist.cons _ (ih hr)
        · rw [if_neg hi]
          exact List.Sublist.cons₂ _ (ih hr)

theorem filterFresh_err {cube : List Vox} {hist : List Nat} :
    ∀ {input : List Nb} {e : PyErr}, filterFresh cube hist input = .error e →
    e = .notFound := by
  intro input
  induction input with
  | nil => intro e h; simp [filterFresh] at h
  | cons c rest ih =>
    intro e h
    simp only [filterFresh] at h
    cases hf : find_index c.pos cube with
    | none => rw [hf] at h; simp at h; exact h.symm
    | some i =>
      rw [hf] at h
      cases hr : filterFresh cube hist rest with
      | error e0 =>
        rw [hr] at h
        simp at h
        subst h
        exact ih hr
      | ok l0 => rw [hr] at h; simp at h

/-- The full six-candidate list, shaped like the appends of candidates;
candidates is always a sublist of it. -/
def sixCandidates (sponsor : Vox) (step : Int) : List Nb :=
  [⟨⟨sponsor.x + step, sponsor.y, sponsor.z⟩, 0⟩] ++
  [⟨⟨sponsor.x - step, sponsor.y, sponsor.z⟩, 1⟩] ++
  [⟨⟨sponsor.x, sponsor.y + step, sponsor.z⟩, 2⟩] ++
  [⟨⟨sponsor.x, sponsor.y - step, sponsor.z⟩, 3⟩] ++
  ([⟨⟨sponsor.x, sponsor.y, sponsor.z - step⟩, 4⟩] ++
   [⟨⟨sponsor.x, sponsor.y, sponsor.z + step⟩, 5⟩])

theorem candidates_sublist (sponsor : Vox) (step sideLen : Int) (surface_only : Bool) :
    List.Sublist (candidates sponsor step sideLen surface_only) (sixCandidates sponsor step) := by
  unfold candidates sixCandidates
  refine List.Sublist.append (List.Sublist.append (List.Sublist.append
    (List.Sublist.append ?_ ?_) ?_) ?_) ?_
  · split <;> simp
  · split <;> simp
  · split <;> simp
  · split <;> simp
  · split
    · simp
    · refine List.Sublist.append ?_ ?_
      · split <;> simp
      · split <;> simp

theorem sixCandidates_pairwise (sponsor : Vox) (step : Int) (hstep : step ≠ 0) :
    (sixCandidates sponsor step).Pairwise (fun a b => a.pos ≠ b.pos) := by
  unfold sixCandidates
  simp only [List.cons_append, List.nil_append]
  refine List.Pairwise.cons ?_ (List.Pairwise.cons ?_ (List.Pairwise.cons ?_
    (List.Pairwise.cons ?_ (List.Pairwise.cons ?_ (List.pairwise_singleton _ _))))) <;>
    · intro b hb
      fin_cases hb <;>
        · intro he
          injection he with h1 h2 h3
          omega

theorem candidates_pairwise (sponsor : Vox) (step sideLen : Int) (surface_only : Bool)
    (hstep : step ≠ 0) :
    (candidates sponsor step sideLen surface_only).Pairwise (fun a b => a.pos ≠ b.pos) :=
  List.Pairwise.sublist (candidates_sublist sponsor step sideLen surface_only)
    (sixCandidates_pairwise sponsor step hstep)

/-!
Sponsor-region builder (deform.py lines 57-95).  The bookkeeping array
original_sponsors starts as the one-dimensional four-entry array
[dst.x, dst.y, dst.z, source_index].  At the end of each layer iteration the
source runs numpy append of asarray(storage_layer) and [original_sponsors]
on axis 0: this succeeds only when original_sponsors is still one-dimensional
(so that [original_sponsors] has shape 1 x 4) and storage_layer is nonempty
(so that asarray gives a 2-d array); any other combination mixes arrays of
different dimensionality and raises ValueError.  After the loop the source
slices original_sponsors[:, :3], which raises IndexError when the array is
still one-dimensional (displacement_area below one).  SpArr records the
dimensionality so those two failure modes are modelled exactly.
-/

/-- The original_sponsors accumulator: either still the initial
one-dimensional row, or a two-dimensional array of rows. -/
inductive SpArr where
  | one (r : Row)
  | two (rs : List Row)
deriving DecidableEq, Repr

/-- Conversion of freshly found neighbors into rows (lines 85-86): slot 3 of
each storage element is overwritten with the index of its position. -/
def toRows (cube : List Vox) : List Nb → Except PyErr (List Row)
  | [] => .ok []
  | nb :: rest =>
    match find_index nb.pos cube with
    | none => .error .notFound
    | some i =>
      match toRows cube rest with
      | .error e => .error e
      | .ok rs => .ok (⟨nb.pos, i⟩ :: rs)

/-- Inner while loop of one layer (lines 78-87): pop each outside-layer
sponsor, collect its surface neighbors into the storage layer, and append
the indices of the whole storage layer so far to the history (the source
for-loop at lines 85-87 runs over the full storage_layer each time, so
already-recorded indices are appended again; re-running find_index on them
is idempotent). -/
def layerLoop (cube : List Vox) (step sideLen : Int) :
    List Row → List Row → List Nat → Except PyErr (List Row × List Nat)
  | [], storage, hist => .ok (storage, hist)
  | r :: rest, storage, hist =>
    match cube.get? r.idx with
    | none => .error .oob
    | some sponsor =>
      match find_neighbors sponsor cube hist step sideLen true with
      | .error e => .error e
      | .ok nbs =>
        match toRows cube nbs with
        | .error e => .error e
        | .ok newRows =>
          layerLoop cube step sideLen rest (storage ++ newRows)
            (hist ++ (storage ++ newRows).map Row.idx)

/-- Outer layer loop (lines 76-90), one iteration per unit of
displacement_area, tracking the dimensionality of original_sponsors; the
numpy append at line 89 succeeds only in the one-dimensional-plus-nonempty
case, and afterwards outside_layer (drained by the inner loop) is extended
with the storage layer. -/
def areaLoop (cube : List Vox) (step sideLen : Int) :
    Nat → SpArr → List Row → List Nat → Except PyErr SpArr
  | 0, sponsors, _, _ => .ok sponsors
  | n + 1, sponsors, outside, hist =>
    match layerLoop cube step sideLen outside [] hist with
    | .error e => .error e
    | .ok (storage, hist') =>
      match sponsors, storage with
      | SpArr.one r, s :: ss => areaLoop cube step sideLen n (SpArr.two ((s :: ss) ++ [r])) storage hist'
      | _, _ => .error .shapeMismatch

/-- find_original_sponsors (lines 57-95).  The final translation at line 93
adds the displacement vector to the first three columns of every row —
including the source row, which already holds the displaced destination. -/
def find_original_sponsors (displacement_dst displacement_src : Vox) (cube : List Vox)
    (step : Int) (displacement_area : Int) (sideLen : Int) : Except PyErr (List Row) :=
  let displacement_vector := vsub displacement_dst displacement_src
  match find_index displacement_src cube with
  | none => .error .notFound
  | some sponsor_index =>
    let r0 : Row := ⟨displacement_dst, sponsor_index⟩
    match areaLoop cube step sideLen displacement_area.toNat (SpArr.one r0) [r0] [sponsor_index] with
    | .error e => .error e
    | .ok (SpArr.one _) => .error .oneDimSlice
    | .ok (SpArr.two rs) => .ok (rs.map (fun r => ⟨vadd r.pos displacement_vector, r.idx⟩))

/-- The 2x2x2 test grid with unit coordinates, x-major order. -/
def cube8 : List Vox :=
  (List.range 2).flatMap (fun x => (List.range 2).flatMap (fun y => (List.range 2).map
    (fun z => (⟨Int.ofNat x, Int.ofNat y, Int.ofNat z⟩ : Vox))))

/-- The 3x3x3 test grid with coordinates 0, 1, 2, x-major order. -/
def cube27 : List Vox :=
  (List.range 3).flatMap (fun x => (List.range 3).flatMap (fun y => (List.range 3).map
    (fun z => (⟨Int.ofNat x, Int.ofNat y, Int.ofNat z⟩ : Vox))))

/-!
The deformation propagator (deform.py lines 11-54).  The queue
original_sponsors of active rows is popped from the front; the popped row
carries the displaced position (used as the sponsor argument of the
constraint functions) and the original index (used to fetch the original
position from which neighbors are enumerated).  Each examined neighbor has
its index appended to the history before the constraint function runs; only
neighbors the constraint actually moved are written into the output matrix
and enqueued.  The while loop is embedded with fuel; deform passes a fuel
bound that is proved sufficient (no fuelOut) for nonzero spacing.  The
written field is instrumentation recording the indices committed at line 52,
in order; it affects nothing the source computes.
-/

/-- State of the propagation loop after zero or more iterations: the
remaining queue, the visit history, the committed indices (instrumentation),
and the output matrix. -/
structure LoopSt where
  queue : List Row
  hist : List Nat
  written : List Nat
  mat : List Vox
deriving DecidableEq, Repr

/-- Assignment new_matrix[i] = v; numpy raises on an out-of-range index. -/
def setChecked (m : List Vox) (i : Nat) (v : Vox) : Except PyErr (List Vox) :=
  if i < m.length then .ok (m.set i v) else .error .oob

/-- Lines 28-29: write every sponsor row into the copied matrix. -/
def writeRows (m : List Vox) : List Row → Except PyErr (List Vox)
  | [] => .ok m
  | r :: rest =>
    match setChecked m r.idx r.pos with
    | .error e => .error e
    | .ok m2 => writeRows m2 rest

/-- Inner neighbor loop (lines 40-52) over one batch of neighbors. -/
def batchLoop (sponsorRow : Row) (cube : List Vox) (step stiff : Int) :
    List Nb → List Row → List Nat → List Nat → List Vox → Except PyErr LoopSt
  | [], queue, hist, written, mat => .ok ⟨queue, hist, written, mat⟩
  | nb :: rest, queue, hist, written, mat =>
    match find_index nb.pos cube with
    | none => .error .notFound
    | some npos =>
      match deform_neighbour sponsorRow.pos nb.pos nb.code step stiff with
      | none => batchLoop sponsorRow cube step stiff rest queue (hist ++ [npos]) written mat
      | some adjusted =>
        match setChecked mat npos adjusted with
        | .error e => .error e
        | .ok mat2 =>
          batchLoop sponsorRow cube step stiff rest (queue ++ [⟨adjusted, npos⟩])
            (hist ++ [npos]) (written ++ [npos]) mat2

/-- Outer while loop (lines 32-53), fueled. -/
def propLoop (cube : List Vox) (step sideLen stiff : Int) :
    Nat → List Row → List Nat → List Nat → List Vox → Except PyErr LoopSt
  | 0, _, _, _, _ => .error .fuelOut
  | _ + 1, [], hist, written, mat => .ok ⟨[], hist, written, mat⟩
  | n + 1, r :: rest, hist, written, mat =>
    match cube.get? r.idx with
    | none => .error .oob
    | some sponsor =>
      match find_neighbors sponsor cube hist step sideLen false with
      | .error e => .error e
      | .ok nbs =>
        match batchLoop r cube step stiff nbs rest hist written mat with
        | .error e => .error e
        | .ok st => propLoop cube step sideLen stiff n st.queue st.hist st.written st.mat

/-- deform (lines 11-54).  The fuel passed to the loop exceeds twice the
grid size plus the queue length, which the termination theorem shows is
enough whenever the spacing is nonzero. -/
def deform (disp_src : Vox) (disp_area : Int) (disp_vector : Vox) (original_cube : List Vox)
    (voxel_spacing stiffness_coef sideLen : Int) : Except PyErr (List Vox) :=
  let disp_dst := vadd disp_src disp_vector
  match find_original_sponsors disp_dst disp_src original_cube voxel_spacing disp_area sideLen with
  | .error e => .error e
  | .ok original_sponsors =>
    let sponsor_history := original_sponsors.map Row.idx
    match writeRows original_cube original_sponsors with
    | .error e => .error e
    | .ok new_matrix =>
      match propLoop original_cube voxel_spacing sideLen stiffness_coef
          (2 * original_cube.length + original_sponsors.length + 1)
          original_sponsors sponsor_history [] new_matrix with
      | .error e => .error e
      | .ok st => .ok st.mat

/-- C2: the claim states that every entry of the sponsor region ends at its
original grid position plus exactly the displacement vector, the source
voxel included.  On the code, the source row (index 0 below, originally at
the origin) starts out already holding the displaced destination and the
final translation at line 93 adds the vector to every row again, so the
source lands at its origin plus twice the vector: with vector (1,0,0) the
row for index 0 ends at (2,0,0), not (1,0,0), while the two neighbor rows
are translated once as claimed. -/
theorem c2_source_translated_twice :
    find_original_sponsors ⟨1, 0, 0⟩ ⟨0, 0, 0⟩ cube8 1 1 2 =
      .ok [⟨⟨2, 0, 0⟩, 4⟩, ⟨⟨1, 1, 0⟩, 2⟩, ⟨⟨2, 0, 0⟩, 0⟩] ∧
    cube8.get? 0 = some ⟨0, 0, 0⟩ ∧
    vadd ⟨0, 0, 0⟩ ⟨1, 0, 0⟩ = ⟨1, 0, 0⟩ ∧
    (⟨2, 0, 0⟩ : Vox) ≠ ⟨1, 0, 0⟩ := by
  refine ⟨by rfl, by rfl, by rfl, by decide⟩

/-- C3: the claim states that with influence_radius zero the sponsor region
is the source voxel alone and deform returns a deformed grid.  On the code,
with displacement_area zero the layer loop never runs, original_sponsors is
still the one-dimensional initial array, and the final translation
original_sponsors[:, :3] raises IndexError, so deform fails instead of
returning a grid (the source position is present in the grid and the
request is otherwise valid). -/
theorem c3_radius_zero_raises :
    (⟨0, 0, 0⟩ : Vox) ∈ cube8 ∧
    deform ⟨0, 0, 0⟩ 0 ⟨1, 0, 0⟩ cube8 1 0 2 = .error .oneDimSlice := by
  refine ⟨by decide, by rfl⟩

/-- C4: the claim states that a valid request with zero displacement vector
returns the input grid unchanged.  On the code, with spacing 1, stiffness 1,
influence_radius 1 and zero vector on the 2x2x2 grid, the inverted primary
clamp of deform_up moves each up-neighbor of a sponsor down onto its
sponsor, so three voxels are committed with changed positions and the output
differs from the input (side_length for this grid under correctly rounded
floating point is ceil(8 ** (1/3) * 1) = 2). -/
theorem c4_zero_vector_changes_grid :
    deform ⟨0, 0, 0⟩ 1 ⟨0, 0, 0⟩ cube8 1 1 2 =
      .ok [⟨0, 0, 0⟩, ⟨0, 0, 0⟩, ⟨0, 1, 0⟩, ⟨0, 1, 0⟩,
           ⟨1, 0, 0⟩, ⟨1, 0, 0⟩, ⟨1, 1, 0⟩, ⟨1, 1, 1⟩] ∧
    [(⟨0, 0, 0⟩ : Vox), ⟨0, 0, 0⟩, ⟨0, 1, 0⟩, ⟨0, 1, 0⟩,
     ⟨1, 0, 0⟩, ⟨1, 0, 0⟩, ⟨1, 1, 0⟩, ⟨1, 1, 1⟩] ≠ cube8 := by
  refine ⟨by rfl, by decide⟩

/-- C8 counterexample: the claim states that a request with non-positive
voxel_spacing is rejected with a failure before any traversal.  On the code,
spacing -1 sails through: with source at the origin of the 3x3x3 grid,
influence_radius 1 and zero displacement, the builder and the full
propagation loop run to completion and deform returns a grid (all bound
checks against the negative side_length, here ceil(27 ** (1/3) * -1) = -3,
simply flip which offsets are probed).  No failure is raised at all. -/
theorem c8_negative_spacing_not_rejected :
    (-1 : Int) ≤ 0 ∧
    deform ⟨0, 0, 0⟩ 1 ⟨0, 0, 0⟩ cube27 (-1) 0 (-3) = .ok cube27 := by
  refine ⟨by decide, by rfl⟩

theorem areaLoop_two_err (cube : List Vox) (step sideLen : Int) :
    ∀ (n : Nat) (rs outside : List Row) (hist : List Nat),
    ∃ e, areaLoop cube step sideLen (n + 1) (SpArr.two rs) outside hist = .error e := by
  intro n rs outside hist
  cases h : layerLoop cube step sideLen outside [] hist with
  | error e =>
    refine ⟨e, ?_⟩
    simp only [areaLoop, h]
  | ok p =>
    obtain ⟨storage, hist2⟩ := p
    refine ⟨.shapeMismatch, ?_⟩
    simp only [areaLoop, h]

theorem areaLoop_one_err (cube : List Vox) (step sideLen : Int) :
    ∀ (n : Nat) (r : Row) (outside : List Row) (hist : List Nat),
    ∃ e, areaLoop cube step sideLen (n + 2) (SpArr.one r) outside hist = .error e := by
  intro n r outside hist
  cases h : layerLoop cube step sideLen outside [] hist with
  | error e =>
    refine ⟨e, ?_⟩
    simp only [areaLoop, h]
  | ok p =>
    obtain ⟨storage, hist2⟩ := p
    cases storage with
    | nil =>
      refine ⟨.shapeMismatch, ?_⟩
      simp only [areaLoop, h]
    | cons s ss =>
      obtain ⟨e, he⟩ := areaLoop_two_err cube step sideLen n ((s :: ss) ++ [r]) (s :: ss) hist2
      refine ⟨e, ?_⟩
      simp only [areaLoop, h]
      exact he

/-- C10: for every influence_radius other than exactly one the builder
raises an exception instead of returning a sponsor region (below one the
array never becomes two-dimensional and the final slice raises; at two or
more the layer append mixes dimensionalities and raises; a missing source
raises before either), and consequently deform fails for every such radius
and can only complete when the radius is exactly one. -/
theorem c10_only_radius_one_completes :
    ∀ (dst src : Vox) (cube : List Vox) (step sideLen : Int) (area : Int), area ≠ 1 →
    (∃ e, find_original_sponsors dst src cube step area sideLen = .error e) ∧
    (∀ (vec : Vox) (stiff : Int), ∃ e, deform src area vec cube step stiff sideLen = .error e) := by
  intro dst src cube step sideLen area harea
  have hmain : ∀ (d : Vox), ∃ e, find_original_sponsors d src cube step area sideLen = .error e := by
    intro d
    cases hf : find_index src cube with
    | none =>
      refine ⟨.notFound, ?_⟩
      simp only [find_original_sponsors, hf]
    | some sidx =>
      rcases (show area.toNat = 0 ∨ 2 ≤ area.toNat by omega) with h0 | h2
      · refine ⟨.oneDimSlice, ?_⟩
        simp only [find_original_sponsors, hf, h0, areaLoop]
      · obtain ⟨k, hk⟩ : ∃ k, area.toNat = k + 2 := ⟨area.toNat - 2, by omega⟩
        obtain ⟨e, he⟩ := areaLoop_one_err cube step sideLen k ⟨d, sidx⟩ [⟨d, sidx⟩] [sidx]
        refine ⟨e, ?_⟩
        simp only [find_original_sponsors, hf, hk, he]
  refine ⟨hmain dst, ?_⟩
  intro vec stiff
  obtain ⟨e, he⟩ := hmain (vadd src vec)
  refine ⟨e, ?_⟩
  simp only [deform, he]

/-- Number of grid indices not yet in the visit history. -/
def unvisited (len : Nat) (hist : List Nat) : Nat :=
  ((Finset.range len).filter (fun i => i ∉ hist)).card

theorem unvisited_le (len : Nat) (hist : List Nat) : unvisited len hist ≤ len :=
  le_trans (Finset.card_filter_le _ _) (le_of_eq (Finset.card_range len))

theorem unvisited_append (len : Nat) (hist : List Nat) (i : Nat)
    (hlt : i < len) (hni : i ∉ hist) :
    unvisited len (hist ++ [i]) + 1 = unvisited len hist := by
  unfold unvisited
  have hset : (Finset.range len).filter (fun j => j ∉ hist ++ [i]) =
      ((Finset.range len).filter (fun j => j ∉ hist)).erase i := by
    ext j
    simp only [Finset.mem_filter, Finset.mem_erase, Finset.mem_range, List.mem_append,
      List.mem_singleton]
    tauto
  rw [hset, Finset.card_erase_of_mem]
  · have hpos : 0 < ((Finset.range len).filter (fun j => j ∉ hist)).card := by
      refine Finset.card_pos.mpr ⟨i, ?_⟩
      simp only [Finset.mem_filter, Finset.mem_range]
      exact ⟨hlt, hni⟩
    omega
  · simp only [Finset.mem_filter, Finset.mem_range]
    exact ⟨hlt, hni⟩

theorem set_get?_ne : ∀ (l : List Vox) (i j : Nat) (v : Vox), i ≠ j →
    (l.set i v).get? j = l.get? j := by
  intro l
  induction l with
  | nil => intro i j v h; simp
  | cons a rest ih =>
    intro i j v h
    cases i with
    | zero =>
      cases j with
      | zero => exact absurd rfl h
      | succ j2 => simp [List.set]
    | succ i2 =>
      cases j with
      | zero => simp [List.set]
      | succ j2 =>
        simp only [List.set, List.get?_cons_succ]
        exact ih i2 j2 v (by omega)

theorem setChecked_ok {m m2 : List Vox} {i : Nat} {v : Vox}
    (h : setChecked m i v = .ok m2) : m2 = m.set i v ∧ i < m.length := by
  unfold setChecked at h
  by_cases hi : i < m.length
  · rw [if_pos hi] at h
    injection h with h
    exact ⟨h.symm, hi⟩
  · rw [if_neg hi] at h
    simp at h

theorem setChecked_err {m : List Vox} {i : Nat} {v : Vox} {e : PyErr}
    (h : setChecked m i v = .error e) : e = .oob := by
  unfold setChecked at h
  by_cases hi : i < m.length
  · rw [if_pos hi] at h; simp at h
  · rw [if_neg hi] at h
    injection h with h
    exact h.symm

/-- Frame properties of the inner neighbor loop: the history and the
committed-index list only grow at the end, the matrix keeps its length, and
entries at indices never committed are untouched. -/
theorem batchLoop_frame (sponsorRow : Row) (cube : List Vox) (step stiff : Int) :
    ∀ (nbs : List Nb) (queue : List Row) (hist written : List Nat) (mat : List Vox) (st : LoopSt),
    batchLoop sponsorRow cube step stiff nbs queue hist written mat = .ok st →
    (∃ t, st.hist = hist ++ t) ∧ (∃ w, st.written = written ++ w) ∧
    st.mat.length = mat.length ∧
    (∀ i, i ∉ st.written → st.mat.get? i = mat.get? i) := by
  intro nbs
  induction nbs with
  | nil =>
    intro queue hist written mat st h
    simp only [batchLoop] at h
    injection h with h
    subst h
    exact ⟨⟨[], by simp⟩, ⟨[], by simp⟩, rfl, fun i _ => rfl⟩
  | cons nb rest ih =>
    intro queue hist written mat st h
    simp only [batchLoop] at h
    cases hf : find_index nb.pos cube with
    | none => simp only [hf] at h; exact absurd h (by simp)
    | some npos =>
      simp only [hf] at h
      cases hd : deform_neighbour sponsorRow.pos nb.pos nb.code step stiff with
      | none =>
        simp only [hd] at h
        obtain ⟨⟨t, ht⟩, hw, hlen, hpres⟩ := ih _ _ _ _ _ h
        exact ⟨⟨[npos] ++ t, by rw [ht, List.append_assoc]⟩, hw, hlen, hpres⟩
      | some adjusted =>
        simp only [hd] at h
        cases hs : setChecked mat npos adjusted with
        | error e => simp only [hs] at h; exact absurd h (by simp)
        | ok mat2 =>
          simp only [hs] at h
          obtain ⟨hm2, hnp⟩ := setChecked_ok hs
          obtain ⟨⟨t, ht⟩, ⟨w, hw⟩, hlen, hpres⟩ := ih _ _ _ _ _ h
          refine ⟨⟨[npos] ++ t, by rw [ht, List.append_assoc]⟩,
            ⟨[npos] ++ w, by rw [hw, List.append_assoc]⟩, ?_, ?_⟩
          · rw [hlen, hm2, List.length_set]
          · intro i hi
            have hiw : i ∉ written ++ [npos] := by
              intro hc
              apply hi
              rw [hw]
              exact List.mem_append_left _ hc
            have hne : npos ≠ i := by
              intro hc
              subst hc
              exact hiw (List.mem_append_right _ (List.mem_singleton_self _))
            rw [hpres i hi, hm2, set_get?_ne mat npos i adjusted hne]

/-- Error analysis of the inner neighbor loop: the only exceptions it can
raise are the position lookup failure and the out-of-range write. -/
theorem batchLoop_err (sponsorRow : Row) (cube : List Vox) (step stiff : Int) :
    ∀ (nbs : List Nb) (queue : List Row) (hist written : List Nat) (mat : List Vox) (e : PyErr),
    batchLoop sponsorRow cube step stiff nbs queue hist written mat = .error e →
    e = .notFound ∨ e = .oob := by
  intro nbs
  induction nbs with
  | nil => intro queue hist written mat e h; simp [batchLoop] at h
  | cons nb rest ih =>
    intro queue hist written mat e h
    simp only [batchLoop] at h
    cases hf : find_index nb.pos cube with
    | none =>
      simp only [hf] at h
      injection h with h
      exact Or.inl h.symm
    | some npos =>
      simp only [hf] at h
      cases hd : deform_neighbour sponsorRow.pos nb.pos nb.code step stiff with
      | none =>
        simp only [hd] at h
        exact ih _ _ _ _ _ h
      | some adjusted =>
        simp only [hd] at h
        cases hs : setChecked mat npos adjusted with
        | error e2 =>
          simp only [hs] at h
          injection h with h
          subst h
          exact Or.inr (setChecked_err hs)
        | ok mat2 =>
          simp only [hs] at h
          exact ih _ _ _ _ _ h

/-- Visit-once properties of the inner neighbor loop: when every incoming
neighbor is fresh with respect to the history and the batch has pairwise
distinct positions, the history stays duplicate-free, and the loop lowers
the combined measure of twice the unvisited count plus the queue length by
at least one per committed entry (examined entries shrink the unvisited
count; at most one enqueue happens per examined entry). -/
theorem batchLoop_visit (sponsorRow : Row) (cube : List Vox) (step stiff : Int) :
    ∀ (nbs : List Nb) (queue : List Row) (hist written : List Nat) (mat : List Vox) (st : LoopSt),
    (∀ nb ∈ nbs, ∀ i, find_index nb.pos cube = some i → i ∉ hist) →
    nbs.Pairwise (fun a b => a.pos ≠ b.pos) →
    batchLoop sponsorRow cube step stiff nbs queue hist written mat = .ok st →
    (hist.Nodup → st.hist.Nodup) ∧
    2 * unvisited cube.length st.hist + st.queue.length ≤
      2 * unvisited cube.length hist + queue.length := by
  intro nbs
  induction nbs with
  | nil =>
    intro queue hist written mat st hfresh hpair h
    simp only [batchLoop] at h
    injection h with h
    subst h
    exact ⟨fun hn => hn, le_refl _⟩
  | cons nb rest ih =>
    intro queue hist written mat st hfresh hpair h
    simp only [batchLoop] at h
    cases hf : find_index nb.pos cube with
    | none => simp only [hf] at h; exact absurd h (by simp)
    | some npos =>
      simp only [hf] at h
      have hnpos : npos ∉ hist := hfresh nb (List.mem_cons_self _ _) npos hf
      have hlt : npos < cube.length := find_index_lt hf
      have hu : unvisited cube.length (hist ++ [npos]) + 1 = unvisited cube.length hist :=
        unvisited_append cube.length hist npos hlt hnpos
      have hfresh2 : ∀ nb2 ∈ rest, ∀ i, find_index nb2.pos cube = some i →
          i ∉ hist ++ [npos] := by
        intro nb2 hm i hi hc
        rcases List.mem_append.mp hc with hc1 | hc2
        · exact hfresh nb2 (List.mem_cons_of_mem _ hm) i hi hc1
        · rw [List.mem_singleton] at hc2
          subst hc2
          have hne : nb.pos ≠ nb2.pos := (List.pairwise_cons.mp hpair).1 nb2 hm
          exact find_index_inj hne hf hi rfl
      have hpair2 : rest.Pairwise (fun a b => a.pos ≠ b.pos) :=
        (List.pairwise_cons.mp hpair).2
      have hnodup2 : hist.Nodup → (hist ++ [npos]).Nodup := by
        intro hn
        rw [List.nodup_append]
        refine ⟨hn, List.nodup_singleton _, ?_⟩
        intro a ha hb
        rw [List.mem_singleton] at hb
        subst hb
        exact hnpos ha
      cases hd : deform_neighbour sponsorRow.pos nb.pos nb.code step stiff with
      | none =>
        simp only [hd] at h
        obtain ⟨hn, hle⟩ := ih _ _ _ _ _ hfresh2 hpair2 h
        refine ⟨fun hnd => hn (hnodup2 hnd), ?_⟩
        omega
      | some adjusted =>
        simp only [hd] at h
        cases hs : setChecked mat npos adjusted with
        | error e => simp only [hs] at h; exact absurd h (by simp)
        | ok mat2 =>
          simp only [hs] at h
          obtain ⟨hn, hle⟩ := ih _ _ _ _ _ hfresh2 hpair2 h
          refine ⟨fun hnd => hn (hnodup2 hnd), ?_⟩
          rw [List.length_append, List.length_singleton] at hle
          omega

theorem find_neighbors_fresh {sponsor : Vox} {cube : List Vox} {hist : List Nat}
    {step sideLen : Int} {so : Bool} {l : List Nb}
    (h : find_neighbors sponsor cube hist step sideLen so = .ok l) :
    ∀ nb ∈ l, ∀ i, find_index nb.pos cube = some i → i ∉ hist := by
  intro nb hm i hi
  obtain ⟨_, j, hj, hjn⟩ := filterFresh_mem h nb hm
  rw [hi] at hj
  injection hj with hj
  subst hj
  exact hjn

theorem find_neighbors_pairwise {sponsor : Vox} {cube : List Vox} {hist : List Nat}
    {step sideLen : Int} {so : Bool} {l : List Nb} (hstep : step ≠ 0)
    (h : find_neighbors sponsor cube hist step sideLen so = .ok l) :
    l.Pairwise (fun a b => a.pos ≠ b.pos) :=
  List.Pairwise.sublist (filterFresh_sublist h)
    (candidates_pairwise sponsor step sideLen so hstep)

/-- Frame properties of the whole propagation loop: history and committed
indices only grow, the matrix keeps its length, entries at indices never
committed are untouched, and a normal return means the queue was drained. -/
theorem propLoop_frame (cube : List Vox) (step sideLen stiff : Int) :
    ∀ (fuel : Nat) (queue : List Row) (hist written : List Nat) (mat : List Vox) (st : LoopSt),
    propLoop cube step sideLen stiff fuel queue hist written mat = .ok st →
    (∃ t, st.hist = hist ++ t) ∧ (∃ w, st.written = written ++ w) ∧
    st.mat.length = mat.length ∧
    (∀ i, i ∉ st.written → st.mat.get? i = mat.get? i) ∧
    st.queue = [] := by
  intro fuel
  induction fuel with
  | zero =>
    intro queue hist written mat st h
    simp [propLoop] at h
  | succ n ih =>
    intro queue hist written mat st h
    cases queue with
    | nil =>
      simp only [propLoop] at h
      injection h with h
      subst h
      exact ⟨⟨[], by simp⟩, ⟨[], by simp⟩, rfl, fun i _ => rfl, rfl⟩
    | cons r rest =>
      simp only [propLoop] at h
      cases hg : cube.get? r.idx with
      | none => simp only [hg] at h; exact absurd h (by simp)
      | some sponsor =>
        simp only [hg] at h
        cases hn : find_neighbors sponsor cube hist step sideLen false with
        | error e => simp only [hn] at h; exact absurd h (by simp)
        | ok nbs =>
          simp only [hn] at h
          cases hb : batchLoop r cube step stiff nbs rest hist written mat with
          | error e => simp only [hb] at h; exact absurd h (by simp)
          | ok st1 =>
            simp only [hb] at h
            obtain ⟨⟨t1, ht1⟩, ⟨w1, hw1⟩, hlen1, hpres1⟩ :=
              batchLoop_frame r cube step stiff nbs rest hist written mat st1 hb
            obtain ⟨⟨t2, ht2⟩, ⟨w2, hw2⟩, hlen2, hpres2, hq⟩ := ih _ _ _ _ _ h
            refine ⟨⟨t1 ++ t2, by rw [ht2, ht1, List.append_assoc]⟩,
              ⟨w1 ++ w2, by rw [hw2, hw1, List.append_assoc]⟩,
              by rw [hlen2, hlen1], ?_, hq⟩
            intro i hi
            have hi1 : i ∉ st1.written := by
              intro hc
              apply hi
              rw [hw2]
              exact List.mem_append_left _ hc
            rw [hpres2 i hi, hpres1 i hi1]

/-- Visit-once for the whole propagation loop: the history grows
monotonically and, when the spacing is nonzero and the incoming history is
duplicate-free, stays duplicate-free, because every batch of neighbors is
fresh with respect to the history and has pairwise distinct positions. -/
theorem propLoop_visit (cube : List Vox) (step sideLen stiff : Int) (hstep : step ≠ 0) :
    ∀ (fuel : Nat) (queue : List Row) (hist written : List Nat) (mat : List Vox) (st : LoopSt),
    propLoop cube step sideLen stiff fuel queue hist written mat = .ok st →
    (∃ t, st.hist = hist ++ t) ∧ (hist.Nodup → st.hist.Nodup) := by
  intro fuel
  induction fuel with
  | zero =>
    intro queue hist written mat st h
    simp [propLoop] at h
  | succ n ih =>
    intro queue hist written mat st h
    cases queue with
    | nil =>
      simp only [propLoop] at h
      injection h with h
      subst h
      exact ⟨⟨[], by simp⟩, fun hn => hn⟩
    | cons r rest =>
      simp only [propLoop] at h
      cases hg : cube.get? r.idx with
      | none => simp only [hg] at h; exact absurd h (by simp)
      | some sponsor =>
        simp only [hg] at h
        cases hn : find_neighbors sponsor cube hist step sideLen false with
        | error e => simp only [hn] at h; exact absurd h (by simp)
        | ok nbs =>
          simp only [hn] at h
          cases hb : batchLoop r cube step stiff nbs rest hist written mat with
          | error e => simp only [hb] at h; exact absurd h (by simp)
          | ok st1 =>
            simp only [hb] at h
            obtain ⟨hnd1, _⟩ := batchLoop_visit r cube step stiff nbs rest hist written mat st1
              (find_neighbors_fresh hn) (find_neighbors_pairwise hstep hn) hb
            obtain ⟨⟨t1, ht1⟩, _, _, _⟩ :=
              batchLoop_frame r cube step stiff nbs rest hist written mat st1 hb
            obtain ⟨⟨t2, ht2⟩, hnd2⟩ := ih _ _ _ _ _ h
            exact ⟨⟨t1 ++ t2, by rw [ht2, ht1, List.append_assoc]⟩,
              fun hnd => hnd2 (hnd1 hnd)⟩

/-- Fuel bound for the propagation loop: any fuel beyond twice the
unvisited count plus the queue length never runs out, because popping one
active sponsor and examining its fresh batch strictly shrinks that measure
(every exception other than fuel exhaustion also satisfies the claim). -/
theorem propLoop_fuel (cube : List Vox) (step sideLen stiff : Int) (hstep : step ≠ 0) :
    ∀ (n : Nat) (queue : List Row) (hist written : List Nat) (mat : List Vox),
    2 * unvisited cube.length hist + queue.length < n →
    propLoop cube step sideLen stiff n queue hist written mat ≠ .error .fuelOut := by
  intro n
  induction n with
  | zero => intro queue hist written mat hm; omega
  | succ n ih =>
    intro queue hist written mat hm
    cases queue with
    | nil => simp [propLoop]
    | cons r rest =>
      simp only [propLoop]
      cases hg : cube.get? r.idx with
      | none => simp
      | some sponsor =>
        simp only []
        cases hn : find_neighbors sponsor cube hist step sideLen false with
        | error e =>
          have : e = .notFound := filterFresh_err hn
          subst this
          simp
        | ok nbs =>
          simp only []
          cases hb : batchLoop r cube step stiff nbs rest hist written mat with
          | error e =>
            rcases batchLoop_err r cube step stiff nbs rest hist written mat e hb with
              he | he <;> (subst he; simp)
          | ok st1 =>
            simp only []
            obtain ⟨_, hle⟩ := batchLoop_visit r cube step stiff nbs rest hist written mat st1
              (find_neighbors_fresh hn) (find_neighbors_pairwise hstep hn) hb
            apply ih
            simp only [List.length_cons] at hm
            omega

theorem toRows_err {cube : List Vox} : ∀ {nbs : List Nb} {e : PyErr},
    toRows cube nbs = .error e → e = .notFound := by
  intro nbs
  induction nbs with
  | nil => intro e h; simp [toRows] at h
  | cons nb rest ih =>
    intro e h
    simp only [toRows] at h
    cases hf : find_index nb.pos cube with
    | none =>
      simp only [hf] at h
      injection h with h
      exact h.symm
    | some i =>
      simp only [hf] at h
      cases hr : toRows cube rest with
      | error e2 =>
        simp only [hr] at h
        injection h with h
        subst h
        exact ih hr
      | ok rs => simp only [hr] at h; exact absurd h (by simp)

theorem layerLoop_err {cube : List Vox} {step sideLen : Int} :
    ∀ {outside storage : List Row} {hist : List Nat} {e : PyErr},
    layerLoop cube step sideLen outside storage hist = .error e → e ≠ .fuelOut := by
  intro outside
  induction outside with
  | nil => intro storage hist e h; simp [layerLoop] at h
  | cons r rest ih =>
    intro storage hist e h
    simp only [layerLoop] at h
    cases hg : cube.get? r.idx with
    | none =>
      simp only [hg] at h
      injection h with h
      subst h
      simp
    | some sponsor =>
      simp only [hg] at h
      cases hn : find_neighbors sponsor cube hist step sideLen true with
      | error e2 =>
        simp only [hn] at h
        injection h with h
        subst h
        rw [filterFresh_err hn]
        simp
      | ok nbs =>
        simp only [hn] at h
        cases ht : toRows cube nbs with
        | error e3 =>
          simp only [ht] at h
          injection h with h
          subst h
          rw [toRows_err ht]
          simp
        | ok newRows =>
          simp only [ht] at h
          exact ih h

theorem areaLoop_err {cube : List Vox} {step sideLen : Int} :
    ∀ {n : Nat} {sp : SpArr} {outside : List Row} {hist : List Nat} {e : PyErr},
    areaLoop cube step sideLen n sp outside hist = .error e → e ≠ .fuelOut := by
  intro n
  induction n with
  | zero => intro sp outside hist e h; simp [areaLoop] at h
  | succ n ih =>
    intro sp outside hist e h
    simp only [areaLoop] at h
    cases hl : layerLoop cube step sideLen outside [] hist with
    | error e2 =>
      simp only [hl] at h
      injection h with h
      subst h
      exact layerLoop_err hl
    | ok p =>
      obtain ⟨storage, hist2⟩ := p
      simp only [hl] at h
      cases sp with
      | one r =>
        cases storage with
        | nil =>
          simp only [] at h
          injection h with h
          subst h
          simp
        | cons s ss =>
          simp only [] at h
          exact ih h
      | two rs =>
        simp only [] at h
        injection h with h
        subst h
        simp

theorem find_original_sponsors_err {dst src : Vox} {cube : List Vox}
    {step area sideLen : Int} {e : PyErr}
    (h : find_original_sponsors dst src cube step area sideLen = .error e) :
    e ≠ .fuelOut := by
  simp only [find_original_sponsors] at h
  cases hf : find_index src cube with
  | none =>
    simp only [hf] at h
    injection h with h
    subst h
    simp
  | some sidx =>
    simp only [hf] at h
    cases ha : areaLoop cube step sideLen area.toNat (SpArr.one ⟨dst, sidx⟩) [⟨dst, sidx⟩] [sidx] with
    | error e2 =>
      simp only [ha] at h
      injection h with h
      subst h
      exact areaLoop_err ha
    | ok sp =>
      simp only [ha] at h
      cases sp with
      | one r =>
        simp only [] at h
        injection h with h
        subst h
        simp
      | two rs => simp only [] at h; exact absurd h (by simp)

theorem writeRows_err {rows : List Row} : ∀ {m : List Vox} {e : PyErr},
    writeRows m rows = .error e → e = .oob := by
  induction rows with
  | nil => intro m e h; simp [writeRows] at h
  | cons r rest ih =>
    intro m e h
    simp only [writeRows] at h
    cases hs : setChecked m r.idx r.pos with
    | error e2 =>
      simp only [hs] at h
      injection h with h
      subst h
      exact setChecked_err hs
    | ok m2 =>
      simp only [hs] at h
      exact ih h

theorem writeRows_frame : ∀ (rows : List Row) (m m2 : List Vox),
    writeRows m rows = .ok m2 →
    m2.length = m.length ∧ ∀ i, i ∉ rows.map Row.idx → m2.get? i = m.get? i := by
  intro rows
  induction rows with
  | nil =>
    intro m m2 h
    simp only [writeRows] at h
    injection h with h
    subst h
    exact ⟨rfl, fun i _ => rfl⟩
  | cons r rest ih =>
    intro m m2 h
    simp only [writeRows] at h
    cases hs : setChecked m r.idx r.pos with
    | error e => simp only [hs] at h; exact absurd h (by simp)
    | ok m1 =>
      simp only [hs] at h
      obtain ⟨hm1, hlt⟩ := setChecked_ok hs
      obtain ⟨hlen, hpres⟩ := ih m1 m2 h
      refine ⟨by rw [hlen, hm1, List.length_set], ?_⟩
      intro i hi
      have hir : i ∉ rest.map Row.idx := by
        intro hc
        exact hi (by simp only [List.map_cons, List.mem_cons]; exact Or.inr hc)
      have hne : r.idx ≠ i := by
        intro hc
        exact hi (by simp only [List.map_cons, List.mem_cons]; exact Or.inl hc.symm)
      rw [hpres i hir, hm1, set_get?_ne m r.idx i r.pos hne]

theorem propLoop_ok_queue (cube : List Vox) (step sideLen stiff : Int) :
    ∀ (fuel : Nat) (queue : List Row) (hist written : List Nat) (mat : List Vox) (st : LoopSt),
    propLoop cube step sideLen stiff fuel queue hist written mat = .ok st →
    st.queue = [] := by
  intro fuel queue hist written mat st h
  exact (propLoop_frame cube step sideLen stiff fuel queue hist written mat st h).2.2.2.2

/-- C5: during propagation every grid index is examined as a neighbor at
most once.  Formally: a neighbor index is appended to the history the
moment it is examined and find_neighbors never returns an index already in
the history, so across a completed run of the loop (nonzero spacing, history
initially duplicate-free) the history only grows at the end and never
acquires a duplicate — no index in the visited set is ever reprocessed. -/
theorem c5_visit_once :
    ∀ (cube : List Vox) (step sideLen stiff : Int) (fuel : Nat) (queue : List Row)
      (hist written : List Nat) (mat : List Vox) (st : LoopSt),
    step ≠ 0 → hist.Nodup →
    propLoop cube step sideLen stiff fuel queue hist written mat = .ok st →
    st.hist.Nodup ∧ (∃ t, st.hist = hist ++ t) ∧
    (∀ (sponsor : Vox) (l : List Nb),
      find_neighbors sponsor cube hist step sideLen false = .ok l →
      ∀ nb ∈ l, ∀ i, find_index nb.pos cube = some i → i ∉ hist) := by
  intro cube step sideLen stiff fuel queue hist written mat st hstep hn h
  obtain ⟨hg, hnd⟩ := propLoop_visit cube step sideLen stiff hstep fuel queue hist written mat st h
  exact ⟨hnd hn, hg, fun sponsor l hl => find_neighbors_fresh hl⟩

theorem c5_visit_once_witness :
    ((1 : Int) ≠ 0) ∧ ([] : List Nat).Nodup ∧
    propLoop cube8 1 2 1 1 [] [] [] cube8 = .ok ⟨[], [], [], cube8⟩ ∧
    (LoopSt.hist ⟨[], [], [], cube8⟩).Nodup ∧
    (∃ t, LoopSt.hist ⟨[], [], [], cube8⟩ = [] ++ t) := by
  have h := c5_visit_once cube8 1 2 1 1 [] [] [] cube8 ⟨[], [], [], cube8⟩
    (by decide) (by decide) (by rfl)
  exact ⟨by decide, by decide, by rfl, h.1, h.2.1⟩

/-- C6: for nonzero spacing the propagation loop of deform terminates: the
fuel bound deform passes can never be exhausted (the visited set grows by
one fresh index per examined neighbor, at most one enqueue accompanies each,
and the measure of twice the unvisited count plus the queue length strictly
falls each iteration), and any normal return of the loop has drained the
active queue to empty. -/
theorem c6_propagation_terminates :
    ∀ (disp_src : Vox) (disp_area : Int) (disp_vector : Vox) (cube : List Vox)
      (voxel_spacing stiffness_coef sideLen : Int),
    voxel_spacing ≠ 0 →
    (deform disp_src disp_area disp_vector cube voxel_spacing stiffness_coef sideLen ≠
      .error .fuelOut) ∧
    (∀ (fuel : Nat) (queue : List Row) (hist written : List Nat) (mat : List Vox) (st : LoopSt),
      propLoop cube voxel_spacing sideLen stiffness_coef fuel queue hist written mat = .ok st →
      st.queue = []) := by
  intro src area vec cube step stiff sideLen hstep
  refine ⟨?_, fun fuel queue hist written mat st h =>
    propLoop_ok_queue cube step sideLen stiff fuel queue hist written mat st h⟩
  simp only [deform]
  cases hfo : find_original_sponsors (vadd src vec) src cube step area sideLen with
  | error e =>
    simp only []
    intro hc
    injection hc with hc
    exact find_original_sponsors_err hfo hc
  | ok sponsors =>
    simp only []
    cases hw : writeRows cube sponsors with
    | error e =>
      simp only []
      intro hc
      injection hc with hc
      subst hc
      have := writeRows_err hw
      simp at this
    | ok m0 =>
      simp only []
      cases hp : propLoop cube step sideLen stiff (2 * cube.length + sponsors.length + 1)
          sponsors (sponsors.map Row.idx) [] m0 with
      | error e =>
        simp only []
        intro hc
        injection hc with hc
        subst hc
        have hmeas : 2 * unvisited cube.length (sponsors.map Row.idx) + sponsors.length <
            2 * cube.length + sponsors.length + 1 := by
          have := unvisited_le cube.length (sponsors.map Row.idx)
          omega
        exact propLoop_fuel cube step sideLen stiff hstep _ sponsors
          (sponsors.map Row.idx) [] m0 hmeas hp
      | ok st => simp

theorem c6_propagation_terminates_witness :
    ((1 : Int) ≠ 0) ∧
    deform ⟨0, 0, 0⟩ 1 ⟨0, 0, 0⟩ cube8 1 1 2 ≠ .error .fuelOut := by
  have h := c6_propagation_terminates ⟨0, 0, 0⟩ 1 ⟨0, 0, 0⟩ cube8 1 1 2 (by decide)
  exact ⟨by decide, h.1⟩

/-- C9: containment.  The embedding is pure, mirroring the np.copy at line
25 (the input grid value is never modified); for any completed run, every
index outside the sponsor rows and outside the set of indices committed
during propagation holds exactly its input position in the output, and the
output has the input's length. -/
theorem c9_containment :
    ∀ (disp_src : Vox) (disp_area : Int) (disp_vector : Vox) (cube : List Vox)
      (voxel_spacing stiffness_coef sideLen : Int) (m : List Vox),
    deform disp_src disp_area disp_vector cube voxel_spacing stiffness_coef sideLen = .ok m →
    ∃ (sponsors : List Row) (m0 : List Vox) (st : LoopSt),
      find_original_sponsors (vadd disp_src disp_vector) disp_src cube voxel_spacing
        disp_area sideLen = .ok sponsors ∧
      writeRows cube sponsors = .ok m0 ∧
      propLoop cube voxel_spacing sideLen stiffness_coef
        (2 * cube.length + sponsors.length + 1) sponsors (sponsors.map Row.idx) [] m0 =
        .ok st ∧
      m = st.mat ∧ m.length = cube.length ∧
      (∀ i, i ∉ sponsors.map Row.idx → i ∉ st.written → m.get? i = cube.get? i) := by
  intro src area vec cube step stiff sideLen m h
  simp only [deform] at h
  cases hfo : find_original_sponsors (vadd src vec) src cube step area sideLen with
  | error e => simp only [hfo] at h; exact absurd h (by simp)
  | ok sponsors =>
    simp only [hfo] at h
    cases hw : writeRows cube sponsors with
    | error e => simp only [hw] at h; exact absurd h (by simp)
    | ok m0 =>
      simp only [hw] at h
      cases hp : propLoop cube step sideLen stiff (2 * cube.length + sponsors.length + 1)
          sponsors (sponsors.map Row.idx) [] m0 with
      | error e => simp only [hp] at h; exact absurd h (by simp)
      | ok st =>
        simp only [hp] at h
        injection h with h
        subst h
        obtain ⟨hwlen, hwpres⟩ := writeRows_frame sponsors cube m0 hw
        obtain ⟨_, ⟨w, hwr⟩, hplen, hppres, _⟩ := propLoop_frame cube step sideLen stiff _
          sponsors (sponsors.map Row.idx) [] m0 st hp
        refine ⟨sponsors, m0, st, rfl, hw, hp, rfl, by rw [hplen, hwlen], ?_⟩
        intro i his hiw
        rw [hppres i hiw, hwpres i his]

theorem c9_containment_witness :
    deform ⟨0, 0, 0⟩ 1 ⟨0, 0, 0⟩ cube8 1 1 2 =
      .ok [⟨0, 0, 0⟩, ⟨0, 0, 0⟩, ⟨0, 1, 0⟩, ⟨0, 1, 0⟩,
           ⟨1, 0, 0⟩, ⟨1, 0, 0⟩, ⟨1, 1, 0⟩, ⟨1, 1, 1⟩] ∧
    (∃ (sponsors : List Row) (m0 : List Vox) (st : LoopSt),
      find_original_sponsors (vadd ⟨0, 0, 0⟩ ⟨0, 0, 0⟩) ⟨0, 0, 0⟩ cube8 1 1 2 = .ok sponsors ∧
      writeRows cube8 sponsors = .ok m0 ∧
      propLoop cube8 1 2 1 (2 * cube8.length + sponsors.length + 1) sponsors
        (sponsors.map Row.idx) [] m0 = .ok st ∧
      [(⟨0, 0, 0⟩ : Vox), ⟨0, 0, 0⟩, ⟨0, 1, 0⟩, ⟨0, 1, 0⟩,
       ⟨1, 0, 0⟩, ⟨1, 0, 0⟩, ⟨1, 1, 0⟩, ⟨1, 1, 1⟩] = st.mat ∧
      ([(⟨0, 0, 0⟩ : Vox), ⟨0, 0, 0⟩, ⟨0, 1, 0⟩, ⟨0, 1, 0⟩,
        ⟨1, 0, 0⟩, ⟨1, 0, 0⟩, ⟨1, 1, 0⟩, ⟨1, 1, 1⟩] : List Vox).length = cube8.length ∧
      (∀ i, i ∉ sponsors.map Row.idx → i ∉ st.written →
        ([(⟨0, 0, 0⟩ : Vox), ⟨0, 0, 0⟩, ⟨0, 1, 0⟩, ⟨0, 1, 0⟩,
          ⟨1, 0, 0⟩, ⟨1, 0, 0⟩, ⟨1, 1, 0⟩, ⟨1, 1, 1⟩] : List Vox).get? i = cube8.get? i)) := by
  refine ⟨by rfl, ?_⟩
  exact c9_containment ⟨0, 0, 0⟩ 1 ⟨0, 0, 0⟩ cube8 1 1 2
    [⟨0, 0, 0⟩, ⟨0, 0, 0⟩, ⟨0, 1, 0⟩, ⟨0, 1, 0⟩, ⟨1, 0, 0⟩, ⟨1, 0, 0⟩, ⟨1, 1, 0⟩, ⟨1, 1, 1⟩]
    (by rfl)

theorem sentinel_iff (adjusted c p : Vox) :
    ((if adjusted = c then none else some adjusted) = some p ↔ p = adjusted ∧ p ≠ c) ∧
    ((if adjusted = c then none else some adjusted) = (none : Option Vox) ↔ adjusted = c) := by
  by_cases h : adjusted = c
  · subst h
    simp
  · simp only [if_neg h]
    constructor
    · constructor
      · intro he
        injection he with he
        subst he
        exact ⟨rfl, h⟩
      · intro hpair
        rw [hpair.1]
    · simp [h]

/-- C7: each directional constraint function returns the adjusted position
exactly when that position differs from the input candidate in some
coordinate, and returns the no-change sentinel exactly when the adjusted
position equals the candidate; and in the propagation loop a sentinel
result leaves the output matrix, the committed list and the queue of that
iteration untouched — the voxel keeps its position and is not enqueued,
only its index is marked visited. -/
theorem c7_sentinel_no_propagation :
    ∀ (s c : Vox) (stp stf : Int) (p : Vox),
    (deform_right s c stp stf = some p ↔ p = deform_right_adjust s c stp stf ∧ p ≠ c) ∧
    (deform_right s c stp stf = none ↔ deform_right_adjust s c stp stf = c) ∧
    (deform_left s c stp stf = some p ↔ p = deform_left_adjust s c stp stf ∧ p ≠ c) ∧
    (deform_left s c stp stf = none ↔ deform_left_adjust s c stp stf = c) ∧
    (deform_top s c stp stf = some p ↔ p = deform_top_adjust s c stp stf ∧ p ≠ c) ∧
    (deform_top s c stp stf = none ↔ deform_top_adjust s c stp stf = c) ∧
    (deform_lower s c stp stf = some p ↔ p = deform_lower_adjust s c stp stf ∧ p ≠ c) ∧
    (deform_lower s c stp stf = none ↔ deform_lower_adjust s c stp stf = c) ∧
    (deform_down s c stp stf = some p ↔ p = deform_down_adjust s c stp stf ∧ p ≠ c) ∧
    (deform_down s c stp stf = none ↔ deform_down_adjust s c stp stf = c) ∧
    (deform_up s c stp stf = some p ↔ p = deform_up_adjust s c stp stf ∧ p ≠ c) ∧
    (deform_up s c stp stf = none ↔ deform_up_adjust s c stp stf = c) ∧
    (∀ (r : Row) (cube : List Vox) (nb : Nb) (rest : List Nb) (queue : List Row)
       (hist written : List Nat) (mat : List Vox) (npos : Nat),
      find_index nb.pos cube = some npos →
      deform_neighbour r.pos nb.pos nb.code stp stf = none →
      batchLoop r cube stp stf (nb :: rest) queue hist written mat =
        batchLoop r cube stp stf rest queue (hist ++ [npos]) written mat) := by
  intro s c stp stf p
  refine ⟨(sentinel_iff _ _ _).1, (sentinel_iff _ _ p).2, (sentinel_iff _ _ _).1,
    (sentinel_iff _ _ p).2, (sentinel_iff _ _ _).1, (sentinel_iff _ _ p).2,
    (sentinel_iff _ _ _).1, (sentinel_iff _ _ p).2, (sentinel_iff _ _ _).1,
    (sentinel_iff _ _ p).2, (sentinel_iff _ _ _).1, (sentinel_iff _ _ p).2, ?_⟩
  intro r cube nb rest queue hist written mat npos hf hd
  simp only [batchLoop, hf, hd]

theorem c7_sentinel_no_propagation_witness :
    find_index ⟨1, 0, 0⟩ [⟨0, 0, 0⟩, ⟨1, 0, 0⟩] = some 1 ∧
    deform_neighbour ⟨0, 0, 0⟩ ⟨1, 0, 0⟩ 0 1 0 = none ∧
    batchLoop ⟨⟨0, 0, 0⟩, 0⟩ [⟨0, 0, 0⟩, ⟨1, 0, 0⟩] 1 0 [⟨⟨1, 0, 0⟩, 0⟩] [] [] []
        [⟨0, 0, 0⟩, ⟨1, 0, 0⟩] =
      batchLoop ⟨⟨0, 0, 0⟩, 0⟩ [⟨0, 0, 0⟩, ⟨1, 0, 0⟩] 1 0 [] [] ([] ++ [1]) []
        [⟨0, 0, 0⟩, ⟨1, 0, 0⟩] := by
  refine ⟨by rfl, by rfl, ?_⟩
  exact (c7_sentinel_no_propagation ⟨0, 0, 0⟩ ⟨1, 0, 0⟩ 1 0 ⟨0, 0, 0⟩).2.2.2.2.2.2.2.2.2.2.2.2
    ⟨⟨0, 0, 0⟩, 0⟩ [⟨0, 0, 0⟩, ⟨1, 0, 0⟩] ⟨⟨1, 0, 0⟩, 0⟩ [] [] [] [] [⟨0, 0, 0⟩, ⟨1, 0, 0⟩] 1
    (by rfl) (by rfl)

/-- C8 amended: a request whose source position is absent from the grid
fails with the position-not-found error before any traversal, and a request
with negative influence_radius fails with the one-dimensional slice error
before the propagation traversal begins; voxel_spacing, however, is never
validated (see the counterexample theorem: a negative spacing request can
run to completion). -/
theorem c8_rejection_before_traversal :
    ∀ (disp_src : Vox) (disp_area : Int) (disp_vector : Vox) (cube : List Vox)
      (voxel_spacing stiffness_coef sideLen : Int),
    (disp_src ∉ cube →
      deform disp_src disp_area disp_vector cube voxel_spacing stiffness_coef sideLen =
        .error .notFound) ∧
    (disp_src ∈ cube → disp_area < 0 →
      deform disp_src disp_area disp_vector cube voxel_spacing stiffness_coef sideLen =
        .error .oneDimSlice) := by
  intro src area vec cube step stiff sideLen
  constructor
  · intro hnm
    have hf : find_index src cube = none := find_index_none.mpr hnm
    simp only [deform, find_original_sponsors, hf]
  · intro hmem hneg
    obtain ⟨sidx, hsidx⟩ := find_index_mem hmem
    have h0 : area.toNat = 0 := by omega
    simp only [deform, find_original_sponsors, hsidx, h0, areaLoop]

theorem c8_rejection_before_traversal_witness :
    ((⟨9, 9, 9⟩ : Vox) ∉ cube8 ∧
      deform ⟨9, 9, 9⟩ 1 ⟨1, 0, 0⟩ cube8 1 0 2 = .error .notFound) ∧
    ((⟨0, 0, 0⟩ : Vox) ∈ cube8 ∧ (-1 : Int) < 0 ∧
      deform ⟨0, 0, 0⟩ (-1) ⟨1, 0, 0⟩ cube8 1 0 2 = .error .oneDimSlice) := by
  refine ⟨⟨by decide, ?_⟩, ⟨by decide, by decide, ?_⟩⟩
  · exact (c8_rejection_before_traversal ⟨9, 9, 9⟩ 1 ⟨1, 0, 0⟩ cube8 1 0 2).1 (by decide)
  · exact (c8_rejection_before_traversal ⟨0, 0, 0⟩ (-1) ⟨1, 0, 0⟩ cube8 1 0 2).2
      (by decide) (by decide)

theorem c10_only_radius_one_completes_witness :
    ((0 : Int) ≠ 1 ∧
      (∃ e, find_original_sponsors ⟨1, 0, 0⟩ ⟨0, 0, 0⟩ cube8 1 0 2 = .error e)) ∧
    ((2 : Int) ≠ 1 ∧
      (∃ e, deform ⟨0, 0, 0⟩ 2 ⟨1, 0, 0⟩ cube27 1 2 4 = .error e)) := by
  refine ⟨⟨by decide, ?_⟩, ⟨by decide, ?_⟩⟩
  · exact (c10_only_radius_one_completes ⟨1, 0, 0⟩ ⟨0, 0, 0⟩ cube8 1 2 0 (by decide)).1
  · exact (c10_only_radius_one_completes (vadd ⟨0, 0, 0⟩ ⟨1, 0, 0⟩) ⟨0, 0, 0⟩ cube27 1 4 2
      (by decide)).2 ⟨1, 0, 0⟩ 2
